import Mathlib

/-!
Verification of the multistake weighted single-vault staking engine.

The data model follows the on-chain account layout declared in
src/app/src/types/multistake.ts (Pool with tokenCount, incrementCount,
admin, feeNumerator, feeDenominator and a fixed array of PoolItem records
holding mintAccount, mintAmount and weight).  Public keys are modelled as
natural numbers with 0 as the default (unoccupied) sentinel.  The
accounting logic of the instructions (stake, unstake, modifyTokenWeight,
addTokenToPool, removeTokenFromPool) is not shipped in this repository:
only the IDL, the SDK glue in src/app/dist/sdk.js and the tests are.
Those operations are therefore modelled from the specification, as noted
on each definition.  Arithmetic is modelled over unbounded naturals: the
test scenario (vault of 3 * 10^11, weights scaled by 10^8) forces the
implementation to use intermediates wider than 64 bits, and no claim
under verification concerns overflow behaviour.
-/

namespace Multistake

/-- Fixed point scale for weights: a weight of 10^8 means 1.0. -/
def SCALE : Nat := 100000000

/-- Maximum number of staking classes in one pool (size of the tokens array). -/
def CAPACITY : Nat := 512

/-- One entry of the tokens array, mirroring the poolItem record of the IDL:
the LP mint address (0 models the default public key, meaning the slot is
free), the outstanding LP supply and the fixed point weight. -/
structure PoolItem where
  mintAccount : Nat
  mintAmount : Nat
  weight : Nat
deriving Repr, DecidableEq

/-- The all zero entry stored in a freed slot. -/
def PoolItem.empty : PoolItem := ⟨0, 0, 0⟩

/-- Pool record mirroring the pool account of the IDL, extended with the
vault balance which the spec tracks alongside the record.  The tokens list
models the live prefix of the fixed 512 entry array; entries beyond the
list are all zero and never observed. -/
structure Pool where
  tokenCount : Nat
  incrementCount : Nat
  admin : Nat
  feeNumerator : Nat
  feeDenominator : Nat
  vaultBalance : Nat
  tokens : List PoolItem
deriving Repr, DecidableEq

/-- A slot is occupied when its mint account differs from the default key. -/
def occupied (it : PoolItem) : Bool := it.mintAccount != 0

/-- Test for the slot holding a given class. -/
def isClass (classId : Nat) (it : PoolItem) : Bool :=
  occupied it && it.mintAccount == classId

/-- Resolve a class identity to its (first, hence unique) occupied slot. -/
def findClass (classId : Nat) (l : List PoolItem) : Option PoolItem :=
  l.find? (isClass classId)

/-- Rewrite the first slot of a given class with an update function. -/
def updateClass (classId : Nat) (f : PoolItem → PoolItem) :
    List PoolItem → List PoolItem
  | [] => []
  | it :: rest =>
    if isClass classId it then f it :: rest
    else it :: updateClass classId f rest

/-- Contribution of one slot to the total weighted claim: outstanding share
times weight for an occupied slot, zero otherwise. -/
def itemClaim (it : PoolItem) : Nat :=
  if occupied it then it.mintAmount * it.weight else 0

/-- Sum of the weighted claims of a slot list. -/
def claimSum (l : List PoolItem) : Nat := (l.map itemClaim).sum

/-- Modelled from the spec: totalClaim is the sum over occupied slots of
outstandingShare times weight.  The model keeps the fixed point product
scaled; the 10^8 descaling of the spec cancels between this quantity and
the slot claims it divides. -/
def totalClaim (pool : Pool) : Nat := claimSum pool.tokens

/-- Modelled from the spec: the pro rata slice of the vault a slot could
redeem right now.  Natural division returns 0 when totalClaim is 0,
matching the spec convention for an empty claim. -/
def pendingRedemptionValue (pool : Pool) (it : PoolItem) : Nat :=
  pool.vaultBalance * itemClaim it / totalClaim pool

/-- Sum of the pending redemption values over the slot array (unoccupied
slots contribute zero). -/
def pendingTotal (pool : Pool) : Nat :=
  (pool.tokens.map (pendingRedemptionValue pool)).sum

/-- Error taxonomy of the engine, following the spec; unauthorized is
reported as invalidAdmin by the deployed program. -/
inductive PoolError where
  | unauthorized
  | slotExhausted
  | unknownClass
  | duplicateClass
  | invalidWeight
  | invalidFee
  | invalidAmount
  | insufficientShares
  | insufficientReserves
  | nonZeroSupplyOnRemoval
deriving Repr, DecidableEq

/-- A freshly created pool: no classes, counters at zero, empty vault. -/
def freshPool (admin feeNumerator feeDenominator : Nat) : Pool :=
  { tokenCount := 0
    incrementCount := 0
    admin := admin
    feeNumerator := feeNumerator
    feeDenominator := feeDenominator
    vaultBalance := 0
    tokens := [] }

/-- Place a fresh slot entry at the first free index of the array, scanning
in index order and appending past the live prefix when it has no hole. -/
def placeInFirstFree (newItem : PoolItem) : List PoolItem → List PoolItem
  | [] => [newItem]
  | it :: rest =>
    if occupied it then it :: placeInFirstFree newItem rest else newItem :: rest

/-- Modelled from the spec: the addTokenToPool instruction (allocateClass),
whose on chain body is absent from this repository.  Admin gated; fails
when the array is full; places a fresh class with zero supply and default
weight 10^8 in the first free slot; the class identity is derived from the
next creation counter value. -/
def addTokenToPool (caller : Nat) (pool : Pool) :
    Except PoolError (Pool × Nat) :=
  if caller ≠ pool.admin then .error .unauthorized
  else if CAPACITY ≤ pool.tokenCount then .error .slotExhausted
  else
    .ok ({ pool with
            tokens := placeInFirstFree ⟨pool.incrementCount + 1, 0, SCALE⟩ pool.tokens
            tokenCount := pool.tokenCount + 1
            incrementCount := pool.incrementCount + 1 }, pool.incrementCount + 1)

/-- Modelled from the spec: the removeTokenFromPool instruction (freeClass),
whose on chain body is absent from this repository.  Admin gated; the
class must resolve; removal of a class with outstanding supply fails; on
success the slot is zeroed and the token count decremented. -/
def removeTokenFromPool (caller : Nat) (pool : Pool) (classId : Nat) :
    Except PoolError Pool :=
  if caller ≠ pool.admin then .error .unauthorized
  else
    match findClass classId pool.tokens with
    | none => .error .unknownClass
    | some item =>
      if item.mintAmount ≠ 0 then .error .nonZeroSupplyOnRemoval
      else
        .ok { pool with
                tokens := updateClass classId (fun _ => PoolItem.empty) pool.tokens
                tokenCount := pool.tokenCount - 1 }

/-- Modelled from the spec: the stake instruction (deposit), whose on chain
body is absent from this repository.  The fee is floor(amount * n / d),
the net amount is credited to the outstanding share of the class, the full
amount enters the vault, and the net amount of LP units is returned. -/
def stake (pool : Pool) (classId stakeAmount : Nat) :
    Except PoolError (Pool × Nat) :=
  if stakeAmount = 0 then .error .invalidAmount
  else
    match findClass classId pool.tokens with
    | none => .error .unknownClass
    | some _ =>
      .ok ({ pool with
              tokens := updateClass classId
                (fun it => { it with mintAmount := it.mintAmount +
                  (stakeAmount - stakeAmount * pool.feeNumerator / pool.feeDenominator) })
                pool.tokens
              vaultBalance := pool.vaultBalance + stakeAmount },
        stakeAmount - stakeAmount * pool.feeNumerator / pool.feeDenominator)

/-- Modelled from the spec: the unstake instruction (redeem), whose on chain
body is absent from this repository.  The payout is the proportional slice
floor(vault * (lpAmount * weight) / totalClaim); the scale factors of the
fixed point products cancel between numerator and denominator.  Redeeming
more than the outstanding share fails; a zero total claim admits no
redemption; a payout beyond the vault is rejected as insufficient
reserves. -/
def unstake (pool : Pool) (classId lpAmount : Nat) :
    Except PoolError (Pool × Nat) :=
  if lpAmount = 0 then .error .invalidAmount
  else
    match findClass classId pool.tokens with
    | none => .error .unknownClass
    | some item =>
      if item.mintAmount < lpAmount then .error .insufficientShares
      else if totalClaim pool = 0 then .error .insufficientReserves
      else if pool.vaultBalance <
          pool.vaultBalance * (lpAmount * item.weight) / totalClaim pool then
        .error .insufficientReserves
      else
        .ok ({ pool with
                tokens := updateClass classId
                  (fun it => { it with mintAmount := it.mintAmount - lpAmount })
                  pool.tokens
                vaultBalance := pool.vaultBalance -
                  pool.vaultBalance * (lpAmount * item.weight) / totalClaim pool },
          pool.vaultBalance * (lpAmount * item.weight) / totalClaim pool)

/-- Apply one validated weight update list to the slot array, in order. -/
def applyWeightUpdates (updates : List (Nat × Nat)) (l : List PoolItem) :
    List PoolItem :=
  updates.foldl
    (fun acc u => updateClass u.1 (fun it => { it with weight := u.2 }) acc) l

/-- Modelled from the spec: the modifyTokenWeight instruction (setWeights),
whose on chain body is absent from this repository.  Admin gated; every
class must resolve to an occupied slot, no class may repeat in one call,
every new weight must be positive; validation happens before any mutation
and the whole batch is applied together or not at all. -/
def modifyTokenWeight (caller : Nat) (pool : Pool)
    (updates : List (Nat × Nat)) : Except PoolError Pool :=
  if caller ≠ pool.admin then .error .unauthorized
  else if ∃ u ∈ updates, findClass u.1 pool.tokens = none then
    .error .unknownClass
  else if ¬ (updates.map Prod.fst).Nodup then .error .duplicateClass
  else if ∃ u ∈ updates, u.2 = 0 then .error .invalidWeight
  else .ok { pool with tokens := applyWeightUpdates updates pool.tokens }

/-- One operation against a pool, for reasoning about sequences. -/
inductive Op where
  | stakeOp (classId amount : Nat)
  | unstakeOp (classId lpAmount : Nat)
  | modifyOp (caller : Nat) (updates : List (Nat × Nat))
  | addOp (caller : Nat)
  | removeOp (caller : Nat) (classId : Nat)
deriving Repr, DecidableEq

/-- Apply one operation; a failed operation leaves the pool unchanged
(every error aborts with no partial mutation). -/
def applyOp (pool : Pool) : Op → Pool
  | .stakeOp c a =>
    match stake pool c a with
    | .ok (p, _) => p
    | .error _ => pool
  | .unstakeOp c a =>
    match unstake pool c a with
    | .ok (p, _) => p
    | .error _ => pool
  | .modifyOp caller updates =>
    match modifyTokenWeight caller pool updates with
    | .ok p => p
    | .error _ => pool
  | .addOp caller =>
    match addTokenToPool caller pool with
    | .ok (p, _) => p
    | .error _ => pool
  | .removeOp caller c =>
    match removeTokenFromPool caller pool c with
    | .ok p => p
    | .error _ => pool

/-- Every pool state observed while running a sequence of operations,
including the initial and final states. -/
def poolStates (pool : Pool) : List Op → List Pool
  | [] => [pool]
  | op :: rest => pool :: poolStates (applyOp pool op) rest

/-- Run a sequence of operations to its final state. -/
def runOps (pool : Pool) (ops : List Op) : Pool := ops.foldl applyOp pool

/-- Class identities handed out by the allocations of a run. -/
def createdIds (pool : Pool) : List Op → List Nat
  | [] => []
  | .addOp caller :: rest =>
    match addTokenToPool caller pool with
    | .ok (p, i) => i :: createdIds p rest
    | .error _ => createdIds pool rest
  | op :: rest => createdIds (applyOp pool op) rest

/-- The items returned by getPoolInfo in src/app/dist/sdk.js: the loop runs
the indices 0 to tokenCount - 1 and keeps the entries whose mintAccount
differs from the default public key. -/
def getPoolInfoItems (pool : Pool) : List PoolItem :=
  (List.range pool.tokenCount).filterMap (fun i =>
    match pool.tokens.get? i with
    | some t => if occupied t then some t else none
    | none => none)

/-- The LP mints returned by getPoolLpMints in src/app/dist/sdk.js: the
mint accounts of the getPoolInfo items. -/
def getPoolLpMints (pool : Pool) : List Nat :=
  (getPoolInfoItems pool).map PoolItem.mintAccount

/-- View of an operation result keeping only the success payload, used to
state concrete executions decidably. -/
def okResult {α : Type} : Except PoolError α → Option α
  | .ok x => some x
  | .error _ => none

/-- Small concrete pool used to instantiate theorems: one class with id 1,
outstanding share 10 and default weight, vault of 10, admin 5. -/
def wv : Pool :=
  { tokenCount := 1
    incrementCount := 1
    admin := 5
    feeNumerator := 3
    feeDenominator := 1000
    vaultBalance := 10
    tokens := [⟨1, 10, SCALE⟩] }

/-- State of wv after redeeming 4 share units of class 1. -/
def wvAfter : Pool :=
  { wv with vaultBalance := 6, tokens := [⟨1, 6, SCALE⟩] }

/-- State of wv after depositing 1000 units into class 1 (fee 3). -/
def wvStaked : Pool :=
  { wv with vaultBalance := 1010, tokens := [⟨1, 1007, SCALE⟩] }

/-- Operation list of the section 8 test scenario: two classes, deposits of
100 and 200 billion units under fee 3/1000, then weights 2.0x and 0.5x. -/
def scenarioOps : List Op :=
  [Op.addOp 1, Op.addOp 1, Op.stakeOp 1 100000000000,
   Op.stakeOp 2 200000000000, Op.modifyOp 1 [(1, 200000000), (2, 50000000)]]

/-- The scenario state just before the two redemptions. -/
def scenarioPool : Pool := runOps (freshPool 1 3 1000) scenarioOps

/-- The scenario state after class 2 redeems all of its 199.4 billion
shares at weight 0.5x. -/
def scenarioAfterB : Pool :=
  { tokenCount := 2
    incrementCount := 2
    admin := 1
    feeNumerator := 3
    feeDenominator := 1000
    vaultBalance := 200000000000
    tokens := [⟨1, 99700000000, 200000000⟩, ⟨2, 0, 50000000⟩] }

/-- The scenario state after class 1 then redeems all of its 99.7 billion
shares at weight 2.0x: the vault is fully drained. -/
def scenarioFinal : Pool :=
  { scenarioAfterB with
      vaultBalance := 0
      tokens := [⟨1, 0, 200000000⟩, ⟨2, 0, 50000000⟩] }

/-- Reachable pool with a live class stored at index 1 while tokenCount is
1: allocate twice, then free the class at index 0. -/
def demoRemoved : Pool :=
  runOps (freshPool 1 3 1000) [Op.addOp 1, Op.addOp 1, Op.removeOp 1 1]

/-- Trace demo used to instantiate the solvency theorem. -/
def demoOps : List Op := [Op.addOp 1, Op.stakeOp 1 1000]

/-- Final state of the trace demo. -/
def demoTraceQ : Pool := runOps (freshPool 1 3 1000) demoOps

/-! ### Basic lemmas about class lookup and slot update -/

theorem isClass_mintAccount {cid : Nat} {it : PoolItem}
    (h : isClass cid it = true) : it.mintAccount = cid ∧ occupied it = true := by
  unfold isClass at h
  rw [Bool.and_eq_true] at h
  exact ⟨by simpa using h.2, h.1⟩

theorem isClass_of_preserving {cid : Nat} {f : PoolItem → PoolItem}
    (hf : ∀ x, (f x).mintAccount = x.mintAccount) (it : PoolItem) :
    isClass cid (f it) = isClass cid it := by
  unfold isClass occupied
  rw [hf]

theorem findClass_split {cid : Nat} {l : List PoolItem} {item : PoolItem}
    (h : findClass cid l = some item) :
    ∃ l₁ l₂, l = l₁ ++ item :: l₂ ∧ (∀ x ∈ l₁, ¬ isClass cid x = true) ∧
      ∀ f, updateClass cid f l = l₁ ++ f item :: l₂ := by
  induction l with
  | nil => simp [findClass] at h
  | cons it rest ih =>
    by_cases hp : isClass cid it = true
    · rw [findClass, List.find?_cons_of_pos _ hp] at h
      obtain rfl : it = item := by injection h
      refine ⟨[], rest, rfl, by simp, fun f => ?_⟩
      simp [updateClass, hp]
    · rw [findClass, List.find?_cons_of_neg _ hp] at h
      obtain ⟨l₁, l₂, he, hall, hupd⟩ := ih h
      refine ⟨it :: l₁, l₂, by simp [he], ?_, fun f => ?_⟩
      · intro x hx
        rcases List.mem_cons.mp hx with rfl | hx
        · exact hp
        · exact hall x hx
      · simp [updateClass, hp, hupd f]

theorem findClass_isClass {cid : Nat} {l : List PoolItem} {item : PoolItem}
    (h : findClass cid l = some item) : isClass cid item = true :=
  List.find?_some h

theorem findClass_append_left_none {cid : Nat} {l₁ l₂ : List PoolItem}
    (h : ∀ x ∈ l₁, ¬ isClass cid x = true) :
    findClass cid (l₁ ++ l₂) = findClass cid l₂ := by
  unfold findClass
  rw [List.find?_append, List.find?_eq_none.mpr h]
  rfl

theorem findClass_updateClass_self {cid : Nat} {l : List PoolItem}
    {item : PoolItem} {f : PoolItem → PoolItem}
    (hf : ∀ x, (f x).mintAccount = x.mintAccount)
    (h : findClass cid l = some item) :
    findClass cid (updateClass cid f l) = some (f item) := by
  obtain ⟨l₁, l₂, _, hall, hupd⟩ := findClass_split h
  rw [hupd f, findClass_append_left_none hall, findClass,
    List.find?_cons_of_pos]
  rw [isClass_of_preserving hf]
  exact findClass_isClass h

theorem findClass_updateClass_ne {cid cid' : Nat} {f : PoolItem → PoolItem}
    (hf : ∀ x, (f x).mintAccount = x.mintAccount) (hne : cid ≠ cid') :
    ∀ l, findClass cid (updateClass cid' f l) = findClass cid l := by
  intro l
  induction l with
  | nil => rfl
  | cons it rest ih =>
    unfold updateClass
    by_cases hp : isClass cid' it = true
    · rw [if_pos hp]
      have h1 : it.mintAccount = cid' := (isClass_mintAccount hp).1
      have h2 : ¬ isClass cid it = true := by
        unfold isClass
        rw [h1]
        simp [Ne.symm hne]
      have h3 : ¬ isClass cid (f it) = true := by
        rw [isClass_of_preserving hf]
        exact h2
      rw [findClass, List.find?_cons_of_neg _ h3, findClass,
        List.find?_cons_of_neg _ h2]
    · rw [if_neg hp]
      by_cases hq : isClass cid it = true
      · rw [findClass, List.find?_cons_of_pos _ hq, findClass,
          List.find?_cons_of_pos _ hq]
      · rw [findClass, List.find?_cons_of_neg _ hq, findClass,
          List.find?_cons_of_neg _ hq]
        exact ih

/-! ### Claim sums -/

@[simp] theorem claimSum_nil : claimSum [] = 0 := rfl

@[simp] theorem claimSum_cons (it : PoolItem) (l : List PoolItem) :
    claimSum (it :: l) = itemClaim it + claimSum l := by
  simp [claimSum]

@[simp] theorem claimSum_append (l₁ l₂ : List PoolItem) :
    claimSum (l₁ ++ l₂) = claimSum l₁ + claimSum l₂ := by
  simp [claimSum]

/-! ### Division bounds behind the solvency invariant -/

theorem add_div_le (a b n : Nat) : a / n + b / n ≤ (a + b) / n := by
  rcases Nat.eq_zero_or_pos n with h | h
  · subst h
    simp
  · rw [Nat.le_div_iff_mul_le h, Nat.add_mul]
    exact Nat.add_le_add (Nat.div_mul_le_self a n) (Nat.div_mul_le_self b n)

theorem sum_map_div_le (v T : Nat) (cs : List Nat) :
    (cs.map (fun c => v * c / T)).sum ≤ v * cs.sum / T := by
  induction cs with
  | nil => simp
  | cons c rest ih =>
    simp only [List.map_cons, List.sum_cons]
    calc v * c / T + (rest.map (fun c => v * c / T)).sum
        ≤ v * c / T + v * rest.sum / T := Nat.add_le_add_left ih _
      _ ≤ (v * c + v * rest.sum) / T := add_div_le _ _ _
      _ = v * (c + rest.sum) / T := by rw [Nat.mul_add]

/-- The solvency invariant holds of every pool state: the pro rata pending
redemption values can never sum past the vault, because the weighted
claims they are computed from sum exactly to totalClaim. -/
theorem pendingTotal_le_vault (pool : Pool) :
    pendingTotal pool ≤ pool.vaultBalance := by
  unfold pendingTotal pendingRedemptionValue
  have h1 : (pool.tokens.map fun it =>
        pool.vaultBalance * itemClaim it / totalClaim pool).sum
      ≤ pool.vaultBalance * (pool.tokens.map itemClaim).sum / totalClaim pool := by
    have h := sum_map_div_le pool.vaultBalance (totalClaim pool)
      (pool.tokens.map itemClaim)
    simpa [List.map_map, Function.comp] using h
  refine le_trans h1 ?_
  have h2 : (pool.tokens.map itemClaim).sum = totalClaim pool := rfl
  rw [h2]
  rcases Nat.eq_zero_or_pos (totalClaim pool) with h | h
  · rw [h]
    simp
  · rw [Nat.mul_div_cancel _ h]

/-! ### Inversion lemmas for the operations -/

theorem stake_ok_inv {pool : Pool} {cid a : Nat} {p' : Pool} {net : Nat}
    (h : stake pool cid a = .ok (p', net)) :
    a ≠ 0 ∧ (∃ item, findClass cid pool.tokens = some item) ∧
      net = a - a * pool.feeNumerator / pool.feeDenominator ∧
      p' = { pool with
              tokens := updateClass cid
                (fun it => { it with mintAmount := it.mintAmount + net })
                pool.tokens
              vaultBalance := pool.vaultBalance + a } := by
  by_cases ha : a = 0
  · unfold stake at h
    rw [if_pos ha] at h
    exact absurd h (by simp)
  · unfold stake at h
    rw [if_neg ha] at h
    cases hfind : findClass cid pool.tokens with
    | none =>
      rw [hfind] at h
      exact absurd h (by simp)
    | some item =>
      rw [hfind] at h
      simp only [Except.ok.injEq, Prod.mk.injEq] at h
      obtain ⟨hp, hnet⟩ := h
      subst hnet
      exact ⟨ha, ⟨item, rfl⟩, rfl, hp.symm⟩

theorem unstake_ok_inv {pool : Pool} {cid a : Nat} {p' : Pool} {payout : Nat}
    (h : unstake pool cid a = .ok (p', payout)) :
    a ≠ 0 ∧ ∃ item, findClass cid pool.tokens = some item ∧
      a ≤ item.mintAmount ∧ totalClaim pool ≠ 0 ∧
      payout = pool.vaultBalance * (a * item.weight) / totalClaim pool ∧
      payout ≤ pool.vaultBalance ∧
      p' = { pool with
              tokens := updateClass cid
                (fun it => { it with mintAmount := it.mintAmount - a })
                pool.tokens
              vaultBalance := pool.vaultBalance - payout } := by
  by_cases ha : a = 0
  · unfold unstake at h
    rw [if_pos ha] at h
    exact absurd h (by simp)
  · unfold unstake at h
    rw [if_neg ha] at h
    cases hfind : findClass cid pool.tokens with
    | none =>
      rw [hfind] at h
      exact absurd h (by simp)
    | some item =>
      rw [hfind] at h
      dsimp only at h
      by_cases hlt : item.mintAmount < a
      · rw [if_pos hlt] at h
        exact absurd h (by simp)
      · rw [if_neg hlt] at h
        by_cases hT : totalClaim pool = 0
        · rw [if_pos hT] at h
          exact absurd h (by simp)
        · rw [if_neg hT] at h
          by_cases hres : pool.vaultBalance <
              pool.vaultBalance * (a * item.weight) / totalClaim pool
          · rw [if_pos hres] at h
            exact absurd h (by simp)
          · rw [if_neg hres] at h
            simp only [Except.ok.injEq, Prod.mk.injEq] at h
            obtain ⟨hp, hpay⟩ := h
            subst hpay
            exact ⟨ha, item, rfl, Nat.le_of_not_lt hlt, hT, rfl,
              Nat.le_of_not_lt hres, hp.symm⟩

theorem addTokenToPool_ok_inv {caller : Nat} {pool p' : Pool} {i : Nat}
    (h : addTokenToPool caller pool = .ok (p', i)) :
    caller = pool.admin ∧ pool.tokenCount < CAPACITY ∧
      i = pool.incrementCount + 1 ∧
      p' = { pool with
              tokens := placeInFirstFree ⟨pool.incrementCount + 1, 0, SCALE⟩
                pool.tokens
              tokenCount := pool.tokenCount + 1
              incrementCount := pool.incrementCount + 1 } := by
  by_cases hc : caller ≠ pool.admin
  · unfold addTokenToPool at h
    rw [if_pos hc] at h
    exact absurd h (by simp)
  · unfold addTokenToPool at h
    rw [if_neg hc] at h
    push_neg at hc
    by_cases hcap : CAPACITY ≤ pool.tokenCount
    · rw [if_pos hcap] at h
      exact absurd h (by simp)
    · rw [if_neg hcap] at h
      simp only [Except.ok.injEq, Prod.mk.injEq] at h
      obtain ⟨hp, hi⟩ := h
      exact ⟨hc, Nat.lt_of_not_le hcap, hi.symm, hp.symm⟩

theorem removeTokenFromPool_ok_inv {caller cid : Nat} {pool p' : Pool}
    (h : removeTokenFromPool caller pool cid = .ok p') :
    caller = pool.admin ∧ ∃ item, findClass cid pool.tokens = some item ∧
      item.mintAmount = 0 ∧
      p' = { pool with
              tokens := updateClass cid (fun _ => PoolItem.empty) pool.tokens
              tokenCount := pool.tokenCount - 1 } := by
  by_cases hc : caller ≠ pool.admin
  · unfold removeTokenFromPool at h
    rw [if_pos hc] at h
    exact absurd h (by simp)
  · unfold removeTokenFromPool at h
    rw [if_neg hc] at h
    push_neg at hc
    cases hfind : findClass cid pool.tokens with
    | none =>
      rw [hfind] at h
      exact absurd h (by simp)
    | some item =>
      rw [hfind] at h
      dsimp only at h
      by_cases hz : item.mintAmount ≠ 0
      · rw [if_pos hz] at h
        exact absurd h (by simp)
      · rw [if_neg hz] at h
        push_neg at hz
        simp only [Except.ok.injEq] at h
        exact ⟨hc, item, rfl, hz, h.symm⟩

theorem modifyTokenWeight_ok_inv {caller : Nat} {pool p' : Pool}
    {updates : List (Nat × Nat)}
    (h : modifyTokenWeight caller pool updates = .ok p') :
    caller = pool.admin ∧
      (∀ u ∈ updates, findClass u.1 pool.tokens ≠ none) ∧
      (updates.map Prod.fst).Nodup ∧ (∀ u ∈ updates, u.2 ≠ 0) ∧
      p' = { pool with tokens := applyWeightUpdates updates pool.tokens } := by
  by_cases hc : caller ≠ pool.admin
  · unfold modifyTokenWeight at h
    rw [if_pos hc] at h
    exact absurd h (by simp)
  · unfold modifyTokenWeight at h
    rw [if_neg hc] at h
    push_neg at hc
    by_cases h1 : ∃ u ∈ updates, findClass u.1 pool.tokens = none
    · rw [if_pos h1] at h
      exact absurd h (by simp)
    · rw [if_neg h1] at h
      push_neg at h1
      by_cases h2 : ¬ (updates.map Prod.fst).Nodup
      · rw [if_pos h2] at h
        exact absurd h (by simp)
      · rw [if_neg h2] at h
        push_neg at h2
        by_cases h3 : ∃ u ∈ updates, u.2 = 0
        · rw [if_pos h3] at h
          exact absurd h (by simp)
        · rw [if_neg h3] at h
          push_neg at h3
          simp only [Except.ok.injEq] at h
          exact ⟨hc, h1, h2, h3, h.symm⟩

/-! ### Arithmetic consequences of a redemption -/

theorem findClass_unique {cid : Nat} {l : List PoolItem} {item item' : PoolItem}
    (h1 : findClass cid l = some item) (h2 : findClass cid l = some item') :
    item = item' := by
  rw [h1] at h2
  injection h2

theorem mul_sub_eq (a b c : Nat) : a * (b - c) = a * b - a * c := by
  rw [Nat.mul_comm, Nat.sub_mul, Nat.mul_comm, Nat.mul_comm c a]

theorem itemClaim_occ {item : PoolItem} (hocc : occupied item = true) :
    itemClaim item = item.mintAmount * item.weight := by
  unfold itemClaim
  rw [hocc]
  simp

theorem totalClaim_unstake {pool p' : Pool} {cid a payout : Nat}
    {item : PoolItem} (hfind : findClass cid pool.tokens = some item)
    (hok : unstake pool cid a = .ok (p', payout)) :
    totalClaim p' + a * item.weight = totalClaim pool := by
  obtain ⟨-, item', hfind', hle, -, -, -, hp⟩ := unstake_ok_inv hok
  obtain rfl : item = item' := findClass_unique hfind hfind'
  have hocc : occupied item = true := (isClass_mintAccount (findClass_isClass hfind)).2
  obtain ⟨l₁, l₂, hsplit, -, hupd⟩ := findClass_split hfind
  have htok : p'.tokens =
      l₁ ++ { item with mintAmount := item.mintAmount - a } :: l₂ := by
    rw [hp]
    exact hupd _
  have hupocc : occupied { item with mintAmount := item.mintAmount - a } = true := hocc
  have hTC' : totalClaim p' =
      claimSum l₁ + (item.mintAmount - a) * item.weight + claimSum l₂ := by
    unfold totalClaim
    rw [htok, claimSum_append, claimSum_cons, itemClaim_occ hupocc]
    dsimp only
    omega
  have hTC : totalClaim pool =
      claimSum l₁ + item.mintAmount * item.weight + claimSum l₂ := by
    unfold totalClaim
    rw [hsplit, claimSum_append, claimSum_cons, itemClaim_occ hocc]
    omega
  have hkey : (item.mintAmount - a) * item.weight + a * item.weight
      = item.mintAmount * item.weight := by
    rw [← Nat.add_mul, Nat.sub_add_cancel hle]
  omega

/-! ### Creation counter lemmas -/

theorem applyOp_incrementCount (pool : Pool) (op : Op) :
    pool.incrementCount ≤ (applyOp pool op).incrementCount := by
  cases op with
  | stakeOp c a =>
    simp only [applyOp]
    cases h :stake pool c a with
    | error e => exact Nat.le_refl _
    | ok pr =>
      obtain ⟨p', net⟩ := pr
      obtain ⟨-, -, -, hp⟩ := stake_ok_inv h
      simp [hp]
  | unstakeOp c a =>
    simp only [applyOp]
    cases h :unstake pool c a with
    | error e => exact Nat.le_refl _
    | ok pr =>
      obtain ⟨p', payout⟩ := pr
      obtain ⟨-, item, -, -, -, -, -, hp⟩ := unstake_ok_inv h
      simp [hp]
  | modifyOp caller updates =>
    simp only [applyOp]
    cases h :modifyTokenWeight caller pool updates with
    | error e => exact Nat.le_refl _
    | ok p' =>
      obtain ⟨-, -, -, -, hp⟩ := modifyTokenWeight_ok_inv h
      simp [hp]
  | addOp caller =>
    simp only [applyOp]
    cases h :addTokenToPool caller pool with
    | error e => exact Nat.le_refl _
    | ok pr =>
      obtain ⟨p', i⟩ := pr
      obtain ⟨-, -, -, hp⟩ := addTokenToPool_ok_inv h
      simp [hp]
  | removeOp caller c =>
    simp only [applyOp]
    cases h :removeTokenFromPool caller pool c with
    | error e => exact Nat.le_refl _
    | ok p' =>
      obtain ⟨-, item, -, -, hp⟩ := removeTokenFromPool_ok_inv h
      simp [hp]

theorem createdIds_gt :
    ∀ (ops : List Op) (pool : Pool) (i : Nat),
      i ∈ createdIds pool ops → pool.incrementCount < i := by
  intro ops
  induction ops with
  | nil =>
    intro pool i h
    simp [createdIds] at h
  | cons op rest ih =>
    intro pool i h
    cases op with
    | addOp caller =>
      cases hadd : addTokenToPool caller pool with
      | error e =>
        rw [createdIds, hadd] at h
        exact ih pool i h
      | ok pr =>
        obtain ⟨p, i₀⟩ := pr
        rw [createdIds, hadd] at h
        obtain ⟨-, -, hi₀, hp⟩ := addTokenToPool_ok_inv hadd
        rcases List.mem_cons.mp h with rfl | hmem
        · omega
        · have h1 := ih p i hmem
          rw [hp] at h1
          simp at h1
          omega
    | stakeOp c a =>
      exact Nat.lt_of_le_of_lt (applyOp_incrementCount pool _) (ih _ i h)
    | unstakeOp c a =>
      exact Nat.lt_of_le_of_lt (applyOp_incrementCount pool _) (ih _ i h)
    | modifyOp caller updates =>
      exact Nat.lt_of_le_of_lt (applyOp_incrementCount pool _) (ih _ i h)
    | removeOp caller c =>
      exact Nat.lt_of_le_of_lt (applyOp_incrementCount pool _) (ih _ i h)

theorem createdIds_nodup :
    ∀ (ops : List Op) (pool : Pool), (createdIds pool ops).Nodup := by
  intro ops
  induction ops with
  | nil =>
    intro pool
    simp [createdIds]
  | cons op rest ih =>
    intro pool
    cases op with
    | addOp caller =>
      cases hadd : addTokenToPool caller pool with
      | error e =>
        rw [createdIds, hadd]
        exact ih pool
      | ok pr =>
        obtain ⟨p, i₀⟩ := pr
        rw [createdIds, hadd]
        rw [List.nodup_cons]
        refine ⟨?_, ih p⟩
        intro hmem
        have h1 := createdIds_gt rest p i₀ hmem
        obtain ⟨-, -, hi₀, hp⟩ := addTokenToPool_ok_inv hadd
        rw [hp] at h1
        simp at h1
        omega
    | stakeOp c a =>
      exact ih _
    | unstakeOp c a =>
      exact ih _
    | modifyOp caller updates =>
      exact ih _
    | removeOp caller c =>
      exact ih _

/-! ### Weight update batch lemmas -/

theorem applyWeightUpdates_cons (u : Nat × Nat) (rest : List (Nat × Nat))
    (l : List PoolItem) :
    applyWeightUpdates (u :: rest) l =
      applyWeightUpdates rest
        (updateClass u.1 (fun it => { it with weight := u.2 }) l) := rfl

theorem findClass_applyWeightUpdates_notmem :
    ∀ (updates : List (Nat × Nat)) (l : List PoolItem) (cid : Nat),
      (∀ u ∈ updates, u.1 ≠ cid) →
      findClass cid (applyWeightUpdates updates l) = findClass cid l := by
  intro updates
  induction updates with
  | nil =>
    intro l cid _
    rfl
  | cons u rest ih =>
    intro l cid h
    rw [applyWeightUpdates_cons,
      ih _ cid (fun w hw => h w (List.mem_cons_of_mem u hw))]
    exact @findClass_updateClass_ne cid u.1
      (fun it => { it with weight := u.2 }) (fun x => rfl)
      (Ne.symm (h u (List.mem_cons_self u rest))) l

theorem applyWeightUpdates_find :
    ∀ (updates : List (Nat × Nat)) (l : List PoolItem),
      (∀ u ∈ updates, findClass u.1 l ≠ none) →
      (updates.map Prod.fst).Nodup →
      ∀ u ∈ updates, ∃ it, findClass u.1 l = some it ∧
        findClass u.1 (applyWeightUpdates updates l) =
          some { it with weight := u.2 } := by
  intro updates
  induction updates with
  | nil =>
    intro l _ _ u hu
    exact absurd hu (by simp)
  | cons u₀ rest ih =>
    intro l hres hnd u hu
    rw [List.map_cons, List.nodup_cons] at hnd
    obtain ⟨hnotin, hnd'⟩ := hnd
    rcases List.mem_cons.mp hu with rfl | hmem
    · have h0 : findClass u.1 l ≠ none := hres u (List.mem_cons_self _ _)
      obtain ⟨it₀, hit₀⟩ := Option.ne_none_iff_exists.mp h0
      refine ⟨it₀, hit₀.symm, ?_⟩
      rw [applyWeightUpdates_cons]
      have hne : ∀ w ∈ rest, w.1 ≠ u.1 := by
        intro w hw he
        exact hnotin (he ▸ List.mem_map_of_mem Prod.fst hw)
      rw [findClass_applyWeightUpdates_notmem rest _ u.1 hne]
      exact @findClass_updateClass_self u.1 l it₀
        (fun it => { it with weight := u.2 }) (fun x => rfl) hit₀.symm
    · have hne0 : u.1 ≠ u₀.1 := by
        intro he
        exact hnotin (he ▸ List.mem_map_of_mem Prod.fst hmem)
      have hpres : ∀ w ∈ rest,
          findClass w.1
            (updateClass u₀.1 (fun it => { it with weight := u₀.2 }) l) ≠ none := by
        intro w hw
        have hwne : w.1 ≠ u₀.1 := by
          intro he
          exact hnotin (he ▸ List.mem_map_of_mem Prod.fst hw)
        rw [@findClass_updateClass_ne w.1 u₀.1
          (fun it => { it with weight := u₀.2 }) (fun x => rfl) hwne]
        exact hres w (List.mem_cons_of_mem _ hw)
      obtain ⟨it, hit, happ⟩ := ih _ hpres hnd' u hmem
      refine ⟨it, ?_, ?_⟩
      · rw [← @findClass_updateClass_ne u.1 u₀.1
          (fun it => { it with weight := u₀.2 }) (fun x => rfl) hne0 l]
        exact hit
      · rw [applyWeightUpdates_cons]
        exact happ

/-! ### Claim theorems -/

/-- C1: for every finite sequence of operations applied to a freshly
created pool, after every operation (at every observable state of the
trace) the vault balance is at least the sum over slots of their pending
redemption values; the bound holds exactly, hence in particular within
the one unit of rounding tolerance the claim allows, and trivially when
totalClaim is zero. -/
theorem solvency_invariant_trace (admin n d : Nat) (ops : List Op)
    (q : Pool) (_hq : q ∈ poolStates (freshPool admin n d) ops) :
    pendingTotal q ≤ q.vaultBalance :=
  pendingTotal_le_vault q

theorem solvency_invariant_trace_witness :
    demoTraceQ ∈ poolStates (freshPool 1 3 1000) demoOps ∧
      pendingTotal demoTraceQ ≤ demoTraceQ.vaultBalance :=
  ⟨by decide, solvency_invariant_trace 1 3 1000 demoOps demoTraceQ (by decide)⟩

/-- C2: a successful redemption of a positive share amount from an
occupied slot with sufficient outstanding share, under a positive total
claim, pays out exactly floor(vaultBalance * (shareAmount * weight) /
totalClaim), where totalClaim sums outstandingShare times weight over the
occupied slots (the 10^8 descaling factors of the fixed point products
cancel between numerator and denominator). -/
theorem unstake_payout_formula {pool p' : Pool} {cid a payout : Nat}
    {item : PoolItem} (_ha : 0 < a)
    (hfind : findClass cid pool.tokens = some item)
    (_hsh : a ≤ item.mintAmount) (_hT : 0 < totalClaim pool)
    (hok : unstake pool cid a = .ok (p', payout)) :
    payout = pool.vaultBalance * (a * item.weight) / totalClaim pool := by
  obtain ⟨-, item', hfind', -, -, hpay, -, -⟩ := unstake_ok_inv hok
  obtain rfl : item = item' := findClass_unique hfind hfind'
  exact hpay

theorem unstake_payout_formula_witness :
    0 < 4 ∧ findClass 1 wv.tokens = some ⟨1, 10, SCALE⟩ ∧ 4 ≤ 10 ∧
      0 < totalClaim wv ∧
      (4 : Nat) = wv.vaultBalance * (4 * (⟨1, 10, SCALE⟩ : PoolItem).weight)
        / totalClaim wv :=
  ⟨by decide, by decide, by decide, by decide,
    @unstake_payout_formula wv wvAfter 1 4 4 ⟨1, 10, SCALE⟩
      (by decide) (by decide) (by decide) (by decide) (by rfl)⟩

/-- C3: a single successful redemption never changes the per unit claim
ratio vaultBalance / totalClaim for the remaining claim, up to rounding:
the cross products after and before differ exactly by the remainder of
the payout division, which is below totalClaim. -/
theorem unstake_preserves_ratio {pool p' : Pool} {cid a payout : Nat}
    {item : PoolItem} (hfind : findClass cid pool.tokens = some item)
    (hok : unstake pool cid a = .ok (p', payout)) :
    p'.vaultBalance * totalClaim pool
        = pool.vaultBalance * totalClaim p'
          + pool.vaultBalance * (a * item.weight) % totalClaim pool ∧
      pool.vaultBalance * totalClaim p' ≤ p'.vaultBalance * totalClaim pool ∧
      p'.vaultBalance * totalClaim pool
        < pool.vaultBalance * totalClaim p' + totalClaim pool := by
  obtain ⟨-, item', hfind', hle, hT, hpay, hple, hp⟩ := unstake_ok_inv hok
  obtain rfl : item = item' := findClass_unique hfind hfind'
  have hTC := totalClaim_unstake hfind hok
  have hvault : p'.vaultBalance = pool.vaultBalance - payout := by rw [hp]
  have hTpos : 0 < totalClaim pool := Nat.pos_of_ne_zero hT
  have hdm : payout * totalClaim pool
      + pool.vaultBalance * (a * item.weight) % totalClaim pool
      = pool.vaultBalance * (a * item.weight) := by
    rw [hpay, Nat.mul_comm]
    exact Nat.div_add_mod _ _
  have hcle : pool.vaultBalance * (a * item.weight)
      ≤ pool.vaultBalance * totalClaim pool :=
    Nat.mul_le_mul_left _ (by omega)
  have hTeq : pool.vaultBalance * totalClaim p'
      = pool.vaultBalance * totalClaim pool
        - pool.vaultBalance * (a * item.weight) := by
    rw [show totalClaim p' = totalClaim pool - a * item.weight by omega,
      mul_sub_eq]
  have hmlt : pool.vaultBalance * (a * item.weight) % totalClaim pool
      < totalClaim pool := Nat.mod_lt _ hTpos
  refine ⟨?_, ?_, ?_⟩ <;> rw [hvault, Nat.sub_mul] <;> omega

theorem unstake_preserves_ratio_witness :
    wvAfter.vaultBalance * totalClaim wv
        = wv.vaultBalance * totalClaim wvAfter
          + wv.vaultBalance * (4 * (⟨1, 10, SCALE⟩ : PoolItem).weight)
            % totalClaim wv ∧
      wv.vaultBalance * totalClaim wvAfter
        ≤ wvAfter.vaultBalance * totalClaim wv ∧
      wvAfter.vaultBalance * totalClaim wv
        < wv.vaultBalance * totalClaim wvAfter + totalClaim wv :=
  @unstake_preserves_ratio wv wvAfter 1 4 4 ⟨1, 10, SCALE⟩ (by decide) (by rfl)

/-- C4: a successful deposit of a positive amount into an occupied class
with a well formed fee rate issues exactly amount minus
floor(amount * feeNumerator / feeDenominator) share units, grows that
slot by exactly the net amount, and grows the vault by the full
amount. -/
theorem stake_deposit_effects {pool p' : Pool} {cid a net : Nat}
    {item : PoolItem} (_ha : 0 < a)
    (_hfee : pool.feeNumerator ≤ pool.feeDenominator)
    (_hd : 0 < pool.feeDenominator)
    (hfind : findClass cid pool.tokens = some item)
    (hok : stake pool cid a = .ok (p', net)) :
    net = a - a * pool.feeNumerator / pool.feeDenominator ∧
      p'.vaultBalance = pool.vaultBalance + a ∧
      findClass cid p'.tokens =
        some { item with mintAmount := item.mintAmount + net } := by
  obtain ⟨-, -, hnet, hp⟩ := stake_ok_inv hok
  refine ⟨hnet, by rw [hp], ?_⟩
  rw [hp]
  subst hnet
  exact @findClass_updateClass_self cid pool.tokens item
    (fun it => { it with mintAmount := it.mintAmount +
      (a - a * pool.feeNumerator / pool.feeDenominator) })
    (fun x => rfl) hfind

theorem stake_deposit_effects_witness :
    0 < 1000 ∧ wv.feeNumerator ≤ wv.feeDenominator ∧ 0 < wv.feeDenominator ∧
      ((997 : Nat) = 1000 - 1000 * wv.feeNumerator / wv.feeDenominator ∧
        wvStaked.vaultBalance = wv.vaultBalance + 1000 ∧
        findClass 1 wvStaked.tokens =
          some { (⟨1, 10, SCALE⟩ : PoolItem) with mintAmount := 10 + 997 }) :=
  ⟨by decide, by decide, by decide,
    @stake_deposit_effects wv wvStaked 1 1000 997 ⟨1, 10, SCALE⟩
      (by decide) (by decide) (by decide) (by decide) (by rfl)⟩

/-- C5: in the section 8 scenario (fee 3/1000, deposits of 100 and 200
billion units into classes 1 and 2, weights then set to 2.0x and 0.5x),
redeeming all 199.4 billion class 2 shares and then all 99.7 billion
class 1 shares both succeed with payouts of 100 and 200 billion, leave
both outstanding shares at zero and the vault at zero, the payouts sum
exactly to the pre redemption vault, and the class 2 payout per share is
strictly below the class 1 payout per share. -/
theorem scenario_full_drain :
    scenarioPool =
      { tokenCount := 2
        incrementCount := 2
        admin := 1
        feeNumerator := 3
        feeDenominator := 1000
        vaultBalance := 300000000000
        tokens := [⟨1, 99700000000, 200000000⟩, ⟨2, 199400000000, 50000000⟩] } ∧
    okResult (unstake scenarioPool 2 199400000000)
        = some (scenarioAfterB, 100000000000) ∧
    okResult (unstake scenarioAfterB 1 99700000000)
        = some (scenarioFinal, 200000000000) ∧
    (findClass 1 scenarioFinal.tokens).map PoolItem.mintAmount = some 0 ∧
    (findClass 2 scenarioFinal.tokens).map PoolItem.mintAmount = some 0 ∧
    scenarioFinal.vaultBalance = 0 ∧
    100000000000 + 200000000000 = scenarioPool.vaultBalance ∧
    100000000000 * 99700000000 < 200000000000 * 199400000000 := by
  refine ⟨by decide, by decide, by decide, by decide, by decide, by decide,
    by decide, by decide⟩

/-- C6: the creation counter grows by exactly one on every successful
allocation, which also hands out exactly the incremented counter value as
the class identity; no operation ever decreases it (removal in particular
leaves it unchanged); and the class identities handed out along any run
from a fresh pool are pairwise distinct, even across slot reuse. -/
theorem creation_counter_unique :
    (∀ (caller : Nat) (pool p' : Pool) (i : Nat),
        addTokenToPool caller pool = .ok (p', i) →
        p'.incrementCount = pool.incrementCount + 1 ∧
          i = pool.incrementCount + 1) ∧
    (∀ (pool : Pool) (op : Op),
        pool.incrementCount ≤ (applyOp pool op).incrementCount) ∧
    (∀ (caller cid : Nat) (pool p' : Pool),
        removeTokenFromPool caller pool cid = .ok p' →
        p'.incrementCount = pool.incrementCount) ∧
    (∀ (admin n d : Nat) (ops : List Op),
        (createdIds (freshPool admin n d) ops).Nodup) := by
  refine ⟨?_, applyOp_incrementCount, ?_, ?_⟩
  · intro caller pool p' i h
    obtain ⟨-, -, hi, hp⟩ := addTokenToPool_ok_inv h
    exact ⟨by rw [hp], hi⟩
  · intro caller cid pool p' h
    obtain ⟨-, item, -, -, hp⟩ := removeTokenFromPool_ok_inv h
    rw [hp]
  · intro admin n d ops
    exact createdIds_nodup ops _

theorem creation_counter_unique_witness :
    (runOps (freshPool 1 3 1000) [Op.addOp 1, Op.addOp 1]).incrementCount = 2 ∧
      (createdIds (freshPool 1 3 1000)
        [Op.addOp 1, Op.addOp 1, Op.removeOp 1 1, Op.addOp 1]).Nodup :=
  ⟨by
      have h := creation_counter_unique.1 1
        (runOps (freshPool 1 3 1000) [Op.addOp 1])
        (runOps (freshPool 1 3 1000) [Op.addOp 1, Op.addOp 1]) 2 (by rfl)
      rw [h.1]
      decide,
    creation_counter_unique.2.2.2 1 3 1000
      [Op.addOp 1, Op.addOp 1, Op.removeOp 1 1, Op.addOp 1]⟩

/-- C7: admin removal of a resolved class fails with
nonZeroSupplyOnRemoval exactly when the outstanding share of that class
is non zero; with zero outstanding share it succeeds, replaces the slot
by the all zero (unoccupied) entry, and decrements the token count by
one. -/
theorem freeClass_supply_guard {caller cid : Nat} {pool : Pool}
    {item : PoolItem} (hadmin : caller = pool.admin)
    (hfind : findClass cid pool.tokens = some item) :
    (removeTokenFromPool caller pool cid = .error .nonZeroSupplyOnRemoval ↔
      item.mintAmount ≠ 0) ∧
    (item.mintAmount = 0 → ∃ l₁ l₂, pool.tokens = l₁ ++ item :: l₂ ∧
      removeTokenFromPool caller pool cid =
        .ok { pool with
                tokens := l₁ ++ PoolItem.empty :: l₂
                tokenCount := pool.tokenCount - 1 }) := by
  have hpath : removeTokenFromPool caller pool cid =
      if item.mintAmount ≠ 0 then .error .nonZeroSupplyOnRemoval
      else .ok { pool with
              tokens := updateClass cid (fun _ => PoolItem.empty) pool.tokens
              tokenCount := pool.tokenCount - 1 } := by
    unfold removeTokenFromPool
    rw [if_neg (by simp [hadmin]), hfind]
  obtain ⟨l₁, l₂, hsplit, -, hupd⟩ := findClass_split hfind
  constructor
  · by_cases hz : item.mintAmount = 0
    · rw [hpath, if_neg (by simp [hz])]
      simp [hz]
    · rw [hpath, if_pos hz]
      simp [hz]
  · intro hz
    refine ⟨l₁, l₂, hsplit, ?_⟩
    rw [hpath, if_neg (by simp [hz]), hupd (fun _ => PoolItem.empty)]

theorem freeClass_supply_guard_witness :
    removeTokenFromPool 5 wv 1 = .error .nonZeroSupplyOnRemoval :=
  ((@freeClass_supply_guard 5 1 wv ⟨1, 10, SCALE⟩
      (by decide) (by decide)).1).mpr (by decide)

/-- C8: an admin weight update batch is validated before any mutation and
applied atomically: an unresolved class identity fails the whole call
with unknownClass, a repeated class identity (with all identities
resolving) fails it with duplicateClass, a zero weight (with identities
resolving and distinct) fails it with invalidWeight, every failure
leaves the pool unchanged, and a fully valid batch succeeds with every
listed slot rewritten to its new weight while vault and token count are
untouched. -/
theorem modify_weights_batch {caller : Nat} {pool : Pool}
    {updates : List (Nat × Nat)} (hadmin : caller = pool.admin) :
    ((∃ u ∈ updates, findClass u.1 pool.tokens = none) →
      modifyTokenWeight caller pool updates = .error .unknownClass) ∧
    ((∀ u ∈ updates, findClass u.1 pool.tokens ≠ none) →
      ¬ (updates.map Prod.fst).Nodup →
      modifyTokenWeight caller pool updates = .error .duplicateClass) ∧
    ((∀ u ∈ updates, findClass u.1 pool.tokens ≠ none) →
      (updates.map Prod.fst).Nodup →
      (∃ u ∈ updates, u.2 = 0) →
      modifyTokenWeight caller pool updates = .error .invalidWeight) ∧
    (∀ e, modifyTokenWeight caller pool updates = .error e →
      applyOp pool (.modifyOp caller updates) = pool) ∧
    ((∀ u ∈ updates, findClass u.1 pool.tokens ≠ none) →
      (updates.map Prod.fst).Nodup →
      (∀ u ∈ updates, u.2 ≠ 0) →
      ∃ p', modifyTokenWeight caller pool updates = .ok p' ∧
        p'.vaultBalance = pool.vaultBalance ∧
        p'.tokenCount = pool.tokenCount ∧
        ∀ u ∈ updates, ∃ it, findClass u.1 pool.tokens = some it ∧
          findClass u.1 p'.tokens = some { it with weight := u.2 }) := by
  have hauth : ¬ (caller ≠ pool.admin) := by simp [hadmin]
  refine ⟨?_, ?_, ?_, ?_, ?_⟩
  · intro h1
    unfold modifyTokenWeight
    rw [if_neg hauth, if_pos h1]
  · intro h1 h2
    have hnone : ¬ ∃ u ∈ updates, findClass u.1 pool.tokens = none := by
      push_neg
      exact h1
    unfold modifyTokenWeight
    rw [if_neg hauth, if_neg hnone, if_pos h2]
  · intro h1 h2 h3
    have hnone : ¬ ∃ u ∈ updates, findClass u.1 pool.tokens = none := by
      push_neg
      exact h1
    unfold modifyTokenWeight
    rw [if_neg hauth, if_neg hnone, if_neg (not_not_intro h2), if_pos h3]
  · intro e he
    simp only [applyOp]
    rw [he]
  · intro h1 h2 h3
    have hnone : ¬ ∃ u ∈ updates, findClass u.1 pool.tokens = none := by
      push_neg
      exact h1
    have hzero : ¬ ∃ u ∈ updates, u.2 = 0 := by
      push_neg
      exact h3
    refine ⟨{ pool with tokens := applyWeightUpdates updates pool.tokens },
      ?_, rfl, rfl, ?_⟩
    · unfold modifyTokenWeight
      rw [if_neg hauth, if_neg hnone, if_neg (not_not_intro h2), if_neg hzero]
    · intro u hu
      exact applyWeightUpdates_find updates pool.tokens h1 h2 u hu

theorem modify_weights_batch_witness :
    ∃ p', modifyTokenWeight 5 wv [(1, 7)] = .ok p' ∧
      p'.vaultBalance = wv.vaultBalance ∧
      p'.tokenCount = wv.tokenCount ∧
      ∀ u ∈ [((1 : Nat), (7 : Nat))], ∃ it,
        findClass u.1 wv.tokens = some it ∧
        findClass u.1 p'.tokens = some { it with weight := u.2 } :=
  (modify_weights_batch (by decide)).2.2.2.2 (by decide) (by decide)
    (by decide)

/-- C9: a caller other than the pool admin is rejected with the
unauthorized error (reported as invalidAdmin on chain) by both
addTokenToPool and modifyTokenWeight, and the pool state is left
unchanged. -/
theorem admin_gate_unauthorized {caller : Nat} {pool : Pool}
    {updates : List (Nat × Nat)} (h : caller ≠ pool.admin) :
    addTokenToPool caller pool = .error .unauthorized ∧
    modifyTokenWeight caller pool updates = .error .unauthorized ∧
    applyOp pool (.addOp caller) = pool ∧
    applyOp pool (.modifyOp caller updates) = pool := by
  have h1 : addTokenToPool caller pool = .error .unauthorized := by
    unfold addTokenToPool
    rw [if_pos h]
  have h2 : modifyTokenWeight caller pool updates = .error .unauthorized := by
    unfold modifyTokenWeight
    rw [if_pos h]
  refine ⟨h1, h2, ?_, ?_⟩
  · simp only [applyOp]
    rw [h1]
  · simp only [applyOp]
    rw [h2]

theorem admin_gate_unauthorized_witness :
    addTokenToPool 9 wv = .error .unauthorized ∧
    modifyTokenWeight 9 wv [] = .error .unauthorized ∧
    applyOp wv (.addOp 9) = wv ∧
    applyOp wv (.modifyOp 9 []) = wv :=
  admin_gate_unauthorized (by decide)

/-- C10: getPoolInfo returns exactly the entries at indices below
tokenCount whose mint account differs from the default key, so a live
class left at an index at or past tokenCount — reachable once a removal
frees a lower slot and decrements tokenCount — is omitted, as witnessed
on a concrete reachable state; getPoolLpMints consequently omits its
mint. -/
theorem getPoolInfo_visible_slots :
    (∀ (pool : Pool) (it : PoolItem),
        it ∈ getPoolInfoItems pool ↔
          ∃ i, i < pool.tokenCount ∧ pool.tokens.get? i = some it ∧
            occupied it = true) ∧
    demoRemoved.tokenCount = 1 ∧
    demoRemoved.tokens.get? 1 = some ⟨2, 0, SCALE⟩ ∧
    occupied ⟨2, 0, SCALE⟩ = true ∧
    getPoolInfoItems demoRemoved = [] ∧
    getPoolLpMints demoRemoved = [] := by
  refine ⟨?_, by decide, by decide, by decide, by decide, by decide⟩
  intro pool it
  unfold getPoolInfoItems
  rw [List.mem_filterMap]
  constructor
  · rintro ⟨i, hi, hf⟩
    rw [List.mem_range] at hi
    refine ⟨i, hi, ?_⟩
    cases hg : pool.tokens.get? i with
    | none =>
      rw [hg] at hf
      simp at hf
    | some t =>
      rw [hg] at hf
      dsimp only at hf
      by_cases ho : occupied t = true
      · rw [if_pos ho] at hf
        injection hf with hf
        subst hf
        exact ⟨rfl, ho⟩
      · rw [if_neg ho] at hf
        simp at hf
  · rintro ⟨i, hi, hg, ho⟩
    refine ⟨i, List.mem_range.mpr hi, ?_⟩
    rw [hg]
    dsimp only
    rw [if_pos ho]

theorem getPoolInfo_visible_slots_witness :
    (⟨1, 10, SCALE⟩ : PoolItem) ∈ getPoolInfoItems wv :=
  (getPoolInfo_visible_slots.1 wv ⟨1, 10, SCALE⟩).mpr
    ⟨0, by decide, by decide, by decide⟩

end Multistake
